import Mathlib

/-!
# The Freedom E300 Arty platform header (`bsp/env/freedom-e300-arty/platform.h`)

The header is a list of object-like and function-like C macros.  Each macro is
embedded as a definition of the same name that computes what the macro's
expansion computes when it is evaluated by the C compiler for a RISC-V target
with `__riscv_xlen = xlen`.

C integers are kept as a type (width and signedness) together with a bit
pattern, a natural number below `2 ^ width`; the integer promotions, the usual
arithmetic conversions and the conversions on assignment are written out, since
the macros are applied to operands of any integer type.
-/

namespace Platform

/-! ## C integer types and values -/

/-- A C integer type of the target: its width in bits and whether it is signed. -/
structure CType where
  width : Nat
  signed : Bool
deriving DecidableEq

/-- A C integer value: its type and its two's complement bit pattern. -/
structure CInt where
  ty : CType
  bits : Nat
deriving DecidableEq

/-- The bit pattern fits the width of the type. -/
def CInt.WF (x : CInt) : Prop := x.bits < 2 ^ x.ty.width

instance (x : CInt) : Decidable x.WF := by
  unfold CInt.WF
  exact inferInstance

/-- Width of `int` and `unsigned int`: 32 bits under both RISC-V ABIs (ILP32 and LP64). -/
def INT_WIDTH : Nat := 32

/-- The type `int`. -/
def cint : CType := ⟨INT_WIDTH, true⟩

/-- The type `unsigned long`: `xlen` bits wide (ILP32 for RV32, LP64 for RV64). -/
def UL (xlen : Nat) : CType := ⟨xlen, false⟩

/-- The type `unsigned long long`: 64 bits wide. -/
def ULL : CType := ⟨64, false⟩

/-- An `int` constant such as the `0` and `1` written in the source. -/
def intLit (n : Nat) : CInt := ⟨cint, n % 2 ^ INT_WIDTH⟩

/-- The sign bit of a value: set exactly when the type is signed and the value negative. -/
def CInt.neg (x : CInt) : Bool := x.ty.signed && x.bits.testBit (x.ty.width - 1)

/-- The mathematical value of a C integer. -/
def CInt.toInt (x : CInt) : Int :=
  if x.neg then (x.bits : Int) - 2 ^ x.ty.width else (x.bits : Int)

/-- Bit `i` of the value in two's complement of unbounded width: the bit of the
pattern inside the width, the sign above it (zero for an unsigned type). -/
def CInt.bitAt (x : CInt) (i : Nat) : Bool :=
  if i < x.ty.width then x.bits.testBit i else x.neg

/-- Conversion of a value to the integer type `t` (C11 6.3.1.3, with the
modulo-`2 ^ width` behaviour of GCC for signed targets): the pattern is
sign-extended or zero-extended according to the source type, then reduced to
the width of `t`. -/
def convert (t : CType) (x : CInt) : CInt :=
  let ext := if x.neg then x.bits + 2 ^ x.ty.width * (2 ^ (t.width - x.ty.width) - 1) else x.bits
  ⟨t, ext % 2 ^ t.width⟩

/-- The integer promotions (C11 6.3.1.1): a type narrower than `int` becomes `int`. -/
def promote (x : CInt) : CInt :=
  if x.ty.width < INT_WIDTH then convert cint x else x

/-- The common type of the usual arithmetic conversions (C11 6.3.1.8) for two
promoted types: the wider one; at equal width, unsigned unless both are signed. -/
def common (a b : CType) : CType :=
  if a.width = b.width then ⟨a.width, a.signed && b.signed⟩
  else if a.width < b.width then b else a

/-- The type an operand of type `t` has after the integer promotions. -/
def promoteType (t : CType) : CType := if t.width < INT_WIDTH then cint else t

/-- The integer `z` wrapped into the range of the type `t`: the value of type `t` that
is congruent to `z` modulo `2 ^ width`. -/
def wrapInt (t : CType) (z : Int) : Int :=
  if t.signed && decide ((2 : Int) ^ (t.width - 1) ≤ z % 2 ^ t.width) then
    z % 2 ^ t.width - 2 ^ t.width
  else
    z % 2 ^ t.width

/-- A binary operator applied after the usual arithmetic conversions; the result
has the common type and is reduced to its width. -/
def binop (f : Nat → Nat → Nat) (a b : CInt) : CInt :=
  let a1 := promote a
  let b1 := promote b
  let t := common a1.ty b1.ty
  ⟨t, f (convert t a1).bits (convert t b1).bits % 2 ^ t.width⟩

/-- The C operator `&`. -/
def band (a b : CInt) : CInt := binop (fun x y => x &&& y) a b

/-- The C operator `|`. -/
def bor (a b : CInt) : CInt := binop (fun x y => x ||| y) a b

/-- The C operator `+` (wrapping at the width of the common type). -/
def add (a b : CInt) : CInt := binop (fun x y => x + y) a b

/-- The C operator `~`: the complement of the promoted operand, at its width. -/
def bnot (a : CInt) : CInt :=
  let a1 := promote a
  ⟨a1.ty, (2 ^ a1.ty.width - 1) ^^^ (a1.bits % 2 ^ a1.ty.width)⟩

/-- The C operator `==`, as a truth value. -/
def ceq (a b : CInt) : Bool :=
  let a1 := promote a
  let b1 := promote b
  let t := common a1.ty b1.ty
  (convert t a1).bits == (convert t b1).bits

/-- The compound assignment `reg &= e`: the new contents of `reg`, of `reg`'s type. -/
def andAssign (reg e : CInt) : CInt := convert reg.ty (band reg e)

/-- The compound assignment `reg |= e`: the new contents of `reg`, of `reg`'s type. -/
def orAssign (reg e : CInt) : CInt := convert reg.ty (bor reg e)

/-! ## The macros of the header -/

/-- Modelled from the spec: `_AC` is defined in `sifive/const.h`, which is not part of
the sources at hand.  The spec reads `_AC(X, Y)` as the constant `X` (its section 8:
`CLINT_REG(0)` dereferences `0x02000000`) and the base addresses as "fixed, unsigned,
architecture-width integers" (its section 3): the constant `X` with the type that the
suffix `Y` names. -/
def _AC (x : Nat) (suffix : CType) : CInt := ⟨suffix, x % 2 ^ suffix.width⟩

/-- The conditional block on `__riscv_xlen` at the head of the file: the pair of
`MCAUSE_INT` and `MCAUSE_CAUSE` it defines, or the message of its `#error`.  An
undefined `__riscv_xlen` evaluates as `0` in `#if`. -/
def MCAUSE_defs (xlen : Nat) : Except String (CInt × CInt) :=
  if xlen == 32 then
    Except.ok (_AC 0x80000000 (UL xlen), _AC 0x7FFFFFFF (UL xlen))
  else if xlen == 64 then
    Except.ok (_AC 0x8000000000000000 ULL, _AC 0x7FFFFFFFFFFFFFFF ULL)
  else
    Except.error "Unknown XLEN"

/-- The macro `MCAUSE_INT`, as far as the conditional block defines it. -/
def MCAUSE_INT (xlen : Nat) : Except String CInt := (MCAUSE_defs xlen).map Prod.fst

/-- The macro `MCAUSE_CAUSE`, as far as the conditional block defines it. -/
def MCAUSE_CAUSE (xlen : Nat) : Except String CInt := (MCAUSE_defs xlen).map Prod.snd

def CLINT_BASE_ADDR (xlen : Nat) : CInt := _AC 0x02000000 (UL xlen)
def PLIC_BASE_ADDR (xlen : Nat) : CInt := _AC 0x0C000000 (UL xlen)
def UART0_BASE_ADDR (xlen : Nat) : CInt := _AC 0x10013000 (UL xlen)
def UART1_BASE_ADDR (xlen : Nat) : CInt := _AC 0x10023000 (UL xlen)
def MEM_BASE_ADDR (xlen : Nat) : CInt := _AC 0x80000000 (UL xlen)

def INT_RESERVED : CInt := intLit 0
def INT_UART0_BASE : CInt := intLit 1
def INT_UART1_BASE : CInt := intLit 2

/-- A memory location designated by an lvalue `*(volatile uintN_t *)a`: the
address and the width of the access in bits. -/
structure Loc where
  addr : Nat
  width : Nat
deriving DecidableEq

/-- The cast of an integer to a pointer of an `xlen`-bit target (GCC: the high
bits are dropped, or the value is extended according to its signedness). -/
def toPtr (xlen : Nat) (x : CInt) : Nat := (convert ⟨xlen, false⟩ x).bits

/-- The operand `p` of `_REGn(p, i)`: an integer, or a pointer, given by its address
and the size in bytes of the objects it points to (`sizeof(*p)`). -/
inductive Base where
  | int (x : CInt)
  | ptr (addr : Nat) (size : Nat)
deriving DecidableEq

/-- The address that `(T *)((p) + (i))` designates on an `xlen`-bit target.  For an
integer `p` the sum is the C operator `+` on integers and the cast turns it into an
address.  For a pointer `p` the sum is pointer arithmetic: `i` is converted to the
signed type of pointer width, multiplied by `sizeof(*p)` and added to the address,
all modulo `2 ^ xlen`; the cast to another pointer type keeps the address. -/
def sumAddr (xlen : Nat) (p : Base) (i : CInt) : Nat :=
  match p with
  | Base.int x => toPtr xlen (add x i)
  | Base.ptr a size => (a + (convert ⟨xlen, true⟩ i).bits * size) % 2 ^ xlen

/-- `_REG64(p, i)` is `*(volatile uint64_t *)((p) + (i))`. -/
def _REG64 (xlen : Nat) (p : Base) (i : CInt) : Loc := ⟨sumAddr xlen p i, 64⟩

/-- `_REG32(p, i)` is `*(volatile uint32_t *)((p) + (i))`. -/
def _REG32 (xlen : Nat) (p : Base) (i : CInt) : Loc := ⟨sumAddr xlen p i, 32⟩

/-- `_REG16(p, i)` is `*(volatile uint16_t *)((p) + (i))`. -/
def _REG16 (xlen : Nat) (p : Base) (i : CInt) : Loc := ⟨sumAddr xlen p i, 16⟩

/-- `SET_BITS(reg, mask, value)` on values: the contents of `reg` after
`if ((value) == 0) { (reg) &= ~(mask); } else { (reg) |= (mask); }`. -/
def SET_BITS (reg mask value : CInt) : CInt :=
  if ceq value (intLit 0) then andAssign reg (bnot mask) else orAssign reg mask

/-- The statement `SET_BITS(reg, mask, value)` over a machine state `σ`: `reg` is
an lvalue, given by its load and store, and `mask` and `value` are argument
expressions, whose evaluation yields a value and the state it leaves. -/
def SET_BITS_stmt {σ : Type} (load : σ → CInt) (store : CInt → σ → σ)
    (mask value : σ → CInt × σ) (s : σ) : σ :=
  let v := value s
  if ceq v.1 (intLit 0) then
    let m := mask v.2
    store (andAssign (load m.2) (bnot m.1)) m.2
  else
    let m := mask v.2
    store (orAssign (load m.2) m.1) m.2

def CLINT_REG (xlen : Nat) (offset : CInt) : Loc :=
  _REG32 xlen (Base.int (CLINT_BASE_ADDR xlen)) offset
def PLIC_REG (xlen : Nat) (offset : CInt) : Loc :=
  _REG32 xlen (Base.int (PLIC_BASE_ADDR xlen)) offset
def UART0_REG (xlen : Nat) (offset : CInt) : Loc :=
  _REG32 xlen (Base.int (UART0_BASE_ADDR xlen)) offset
def UART1_REG (xlen : Nat) (offset : CInt) : Loc :=
  _REG32 xlen (Base.int (UART1_BASE_ADDR xlen)) offset

/-- A machine state that records how often the argument `value` has been
evaluated: the contents of the register and the number of evaluations so far. -/
structure Counted where
  reg : CInt
  evals : Nat
deriving DecidableEq

/-- The lvalue `reg` of a `Counted` state: its load. -/
def Counted.load (s : Counted) : CInt := s.reg

/-- The lvalue `reg` of a `Counted` state: its store. -/
def Counted.store (x : CInt) (s : Counted) : Counted := ⟨x, s.evals⟩

/-- An argument expression without effect, such as a constant mask. -/
def Counted.const (x : CInt) (s : Counted) : CInt × Counted := (x, s)

/-- An argument expression yielding `x` whose every evaluation is recorded. -/
def Counted.tick (x : CInt) (s : Counted) : CInt × Counted := (x, ⟨s.reg, s.evals + 1⟩)

/-! ## Evaluation on concrete operands -/

theorem eval_SET_BITS_clear_low :
    SET_BITS ⟨⟨32, false⟩, 0xFFFFFFFF⟩ (intLit 7) (intLit 0) = ⟨⟨32, false⟩, 0xFFFFFFF8⟩ := by
  decide

theorem eval_SET_BITS_set_low :
    SET_BITS ⟨⟨32, false⟩, 0xF0⟩ (intLit 7) (intLit 1) = ⟨⟨32, false⟩, 0xF7⟩ := by
  decide

theorem eval_SET_BITS_int_mask_wide_reg :
    SET_BITS ⟨⟨64, false⟩, 0xFFFFFFFFFFFFFFFF⟩ (intLit 7) (intLit 0)
      = ⟨⟨64, false⟩, 0xFFFFFFFFFFFFFFF8⟩ := by
  decide

theorem eval_SET_BITS_byte :
    SET_BITS ⟨⟨8, false⟩, 0xFF⟩ ⟨⟨8, false⟩, 0x81⟩ (intLit 0) = ⟨⟨8, false⟩, 0x7E⟩ := by
  decide

theorem eval_CLINT_REG_zero : CLINT_REG 32 (intLit 0) = ⟨0x02000000, 32⟩ := by
  decide

theorem eval_CLINT_REG_negative_offset :
    CLINT_REG 64 (intLit 0xFFFFFFFC) = ⟨0x01FFFFFC, 32⟩ := by
  decide

/-! ## Bit-level facts about the conversions -/

theorem convert_ty (t : CType) (x : CInt) : (convert t x).ty = t := rfl

theorem convert_wf (t : CType) (x : CInt) : (convert t x).WF := by
  unfold CInt.WF convert
  exact Nat.mod_lt _ (Nat.two_pow_pos _)

theorem testBit_of_wf {x : CInt} (hx : x.WF) {i : Nat} (hi : x.ty.width ≤ i) :
    x.bits.testBit i = false :=
  Nat.testBit_lt_two_pow (Nat.lt_of_lt_of_le hx (Nat.pow_le_pow_right (by decide) hi))

theorem convert_testBit {x : CInt} (hx : x.WF) (t : CType) (i : Nat) :
    (convert t x).bits.testBit i = (decide (i < t.width) && x.bitAt i) := by
  unfold convert CInt.bitAt
  simp only [Nat.testBit_mod_two_pow]
  by_cases hn : x.neg = true
  · simp only [hn, if_true]
    rw [Nat.add_comm, Nat.testBit_mul_pow_two_add _ hx, Nat.testBit_two_pow_sub_one]
    by_cases h1 : i < x.ty.width
    · simp [h1]
    · by_cases h2 : i < t.width
      · have h3 : i - x.ty.width < t.width - x.ty.width := by omega
        simp [h1, h2, h3]
      · simp [h2]
  · simp only [hn]
    by_cases h1 : i < x.ty.width
    · simp [h1]
    · have h4 := testBit_of_wf hx (Nat.le_of_not_lt h1)
      simp [h1, h4, hn]

theorem promote_ty (x : CInt) : (promote x).ty = promoteType x.ty := by
  unfold promote promoteType
  split <;> rfl

theorem promote_wf {x : CInt} (hx : x.WF) : (promote x).WF := by
  unfold promote
  split
  · exact convert_wf _ _
  · exact hx

theorem promote_width_le (x : CInt) : x.ty.width ≤ (promote x).ty.width := by
  unfold promote
  split
  · rename_i h
    simp only [convert_ty, cint]
    exact Nat.le_of_lt h
  · exact Nat.le_refl _

theorem int_le_promote_width (x : CInt) : INT_WIDTH ≤ (promote x).ty.width := by
  unfold promote
  split
  · simp [convert_ty, cint]
  · rename_i h
    exact Nat.le_of_not_lt h

theorem convert_cint_neg {x : CInt} (hx : x.WF) (h : x.ty.width < INT_WIDTH) :
    (convert cint x).neg = x.neg := by
  have h1 : ¬ INT_WIDTH - 1 < x.ty.width := by unfold INT_WIDTH at *; omega
  have h2 : INT_WIDTH - 1 < INT_WIDTH := by decide
  have h3 : (convert cint x).neg = (convert cint x).bits.testBit (INT_WIDTH - 1) := by
    simp [CInt.neg, convert_ty, cint]
  rw [h3, convert_testBit hx]
  simp [CInt.bitAt, h1, cint, h2]

theorem promote_bitAt {x : CInt} (hx : x.WF) (i : Nat) : (promote x).bitAt i = x.bitAt i := by
  unfold promote
  split
  · rename_i h
    by_cases h1 : i < INT_WIDTH
    · have h4 : (convert cint x).bitAt i = (convert cint x).bits.testBit i := by
        simp [CInt.bitAt, convert_ty, cint, h1]
      rw [h4, convert_testBit hx]
      simp [cint, h1]
    · have h2 : ¬ i < x.ty.width := by omega
      have h4 : (convert cint x).bitAt i = (convert cint x).neg := by
        simp [CInt.bitAt, convert_ty, cint, h1]
      rw [h4, convert_cint_neg hx h]
      simp [CInt.bitAt, h2]
  · rfl

theorem common_width_left (a b : CType) : a.width ≤ (common a b).width := by
  unfold common
  split
  · exact Nat.le_refl _
  · split
    · rename_i h
      exact Nat.le_of_lt h
    · exact Nat.le_refl _

theorem common_width_right (a b : CType) : b.width ≤ (common a b).width := by
  unfold common
  split
  · rename_i h
    simp [h]
  · split
    · exact Nat.le_refl _
    · rename_i h1 h2
      exact Nat.le_of_not_lt h2

/-- A promoted operand converted to any type keeps the bits of its value. -/
theorem convert_promote_testBit {x : CInt} (hx : x.WF) (t : CType) (i : Nat) :
    (convert t (promote x)).bits.testBit i = (decide (i < t.width) && x.bitAt i) := by
  rw [convert_testBit (promote_wf hx), promote_bitAt hx]

theorem band_testBit {a b : CInt} (ha : a.WF) (hb : b.WF) (i : Nat) :
    (band a b).bits.testBit i
      = (decide (i < (band a b).ty.width) && (a.bitAt i && b.bitAt i)) := by
  unfold band binop
  simp only [Nat.testBit_mod_two_pow, Nat.testBit_and, convert_promote_testBit ha,
    convert_promote_testBit hb]
  cases decide (i < (common (promote a).ty (promote b).ty).width) <;> simp

theorem bor_testBit {a b : CInt} (ha : a.WF) (hb : b.WF) (i : Nat) :
    (bor a b).bits.testBit i
      = (decide (i < (bor a b).ty.width) && (a.bitAt i || b.bitAt i)) := by
  unfold bor binop
  simp only [Nat.testBit_mod_two_pow, Nat.testBit_or, convert_promote_testBit ha,
    convert_promote_testBit hb]
  cases decide (i < (common (promote a).ty (promote b).ty).width) <;> simp

theorem binop_wf (f : Nat → Nat → Nat) (a b : CInt) : (binop f a b).WF := by
  unfold CInt.WF binop
  exact Nat.mod_lt _ (Nat.two_pow_pos _)

theorem band_wf (a b : CInt) : (band a b).WF := binop_wf _ a b

theorem bor_wf (a b : CInt) : (bor a b).WF := binop_wf _ a b

theorem binop_width_left (f : Nat → Nat → Nat) (a b : CInt) :
    a.ty.width ≤ (binop f a b).ty.width := by
  unfold binop
  exact Nat.le_trans (promote_width_le a) (common_width_left _ _)

/-- Bits of `reg` after `reg &= e`. -/
theorem andAssign_testBit {reg e : CInt} (hr : reg.WF) (he : e.WF) (i : Nat) :
    (andAssign reg e).bits.testBit i
      = (decide (i < reg.ty.width) && (reg.bits.testBit i && e.bitAt i)) := by
  unfold andAssign
  rw [convert_testBit (band_wf _ _)]
  by_cases hi : i < reg.ty.width
  · have hw : i < (band reg e).ty.width :=
      Nat.lt_of_lt_of_le hi (binop_width_left _ _ _)
    unfold CInt.bitAt
    simp only [hw, if_true, band_testBit hr he, decide_True, Bool.true_and, hi]
    unfold CInt.bitAt
    simp [hi]
  · simp [hi]

/-- Bits of `reg` after `reg |= e`. -/
theorem orAssign_testBit {reg e : CInt} (hr : reg.WF) (he : e.WF) (i : Nat) :
    (orAssign reg e).bits.testBit i
      = (decide (i < reg.ty.width) && (reg.bits.testBit i || e.bitAt i)) := by
  unfold orAssign
  rw [convert_testBit (bor_wf _ _)]
  by_cases hi : i < reg.ty.width
  · have hw : i < (bor reg e).ty.width :=
      Nat.lt_of_lt_of_le hi (binop_width_left _ _ _)
    unfold CInt.bitAt
    simp only [hw, if_true, bor_testBit hr he, decide_True, Bool.true_and, hi]
    unfold CInt.bitAt
    simp [hi]
  · simp [hi]

theorem bitAt_zero_bits {x : CInt} (h : x.bits = 0) (i : Nat) : x.bitAt i = false := by
  unfold CInt.bitAt CInt.neg
  simp [h]

/-- The test `(value) == 0` looks at nothing but whether the pattern of `value` is zero. -/
theorem ceq_zero_iff {v : CInt} (hv : v.WF) : ceq v (intLit 0) = true ↔ v.bits = 0 := by
  have hz : ∀ t, (convert t (promote (intLit 0))).bits = 0 := by
    intro t
    apply Nat.eq_of_testBit_eq
    intro i
    have hw : (intLit 0).WF := by decide
    rw [convert_promote_testBit hw, bitAt_zero_bits (by decide)]
    simp
  unfold ceq
  simp only [hz, beq_iff_eq]
  constructor
  · intro h
    by_contra hne
    obtain ⟨i, hi⟩ := Nat.ne_zero_implies_bit_true hne
    have hiw : i < v.ty.width := by
      by_contra hge
      rw [testBit_of_wf hv (Nat.le_of_not_lt hge)] at hi
      exact Bool.false_ne_true hi
    have hit : i < (common (promote v).ty (promote (intLit 0)).ty).width :=
      Nat.lt_of_lt_of_le hiw (Nat.le_trans (promote_width_le v) (common_width_left _ _))
    have hb := convert_promote_testBit hv (common (promote v).ty (promote (intLit 0)).ty) i
    rw [h] at hb
    simp [hit, CInt.bitAt, hiw, hi] at hb
  · intro h
    apply Nat.eq_of_testBit_eq
    intro i
    rw [convert_promote_testBit hv, bitAt_zero_bits h]
    simp

theorem bnot_wf (m : CInt) : (bnot m).WF := by
  unfold CInt.WF bnot
  apply Nat.xor_lt_two_pow
  · exact Nat.sub_lt (Nat.two_pow_pos _) (by decide)
  · exact Nat.mod_lt _ (Nat.two_pow_pos _)

theorem bnot_ty (m : CInt) : (bnot m).ty = (promote m).ty := rfl

/-- Bits of the value of `~m`: inside the promoted width, and above it when the
promoted type is signed, the complement of the bits of `m`; zero above the width
of an unsigned promoted type. -/
theorem bnot_bitAt {m : CInt} (hm : m.WF) (i : Nat) :
    (bnot m).bitAt i
      = (decide (i < (promote m).ty.width ∨ (promote m).ty.signed = true) && !m.bitAt i) := by
  have hp := promote_wf hm
  have hmod : (promote m).bits % 2 ^ (promote m).ty.width = (promote m).bits :=
    Nat.mod_eq_of_lt hp
  have hpos : 0 < (promote m).ty.width :=
    Nat.lt_of_lt_of_le (by decide) (int_le_promote_width m)
  have hbit : ∀ j, j < (promote m).ty.width →
      (bnot m).bits.testBit j = !(promote m).bits.testBit j := by
    intro j hj
    simp [bnot, hmod, Nat.testBit_xor, Nat.testBit_two_pow_sub_one, hj]
  by_cases h1 : i < (promote m).ty.width
  · have h2 : (bnot m).bitAt i = (bnot m).bits.testBit i := by
      simp [CInt.bitAt, bnot_ty, h1]
    rw [h2, hbit i h1, ← promote_bitAt hm i]
    simp [CInt.bitAt, h1]
  · have h2 : (bnot m).bitAt i = (bnot m).neg := by
      simp [CInt.bitAt, bnot_ty, h1]
    have h3 : (promote m).bitAt i = (promote m).neg := by
      simp [CInt.bitAt, h1]
    have h4 : (bnot m).neg
        = ((promote m).ty.signed && !(promote m).bits.testBit ((promote m).ty.width - 1)) := by
      unfold CInt.neg
      rw [bnot_ty, hbit _ (Nat.sub_lt hpos (by decide))]
    rw [h2, h4, ← promote_bitAt hm i, h3]
    unfold CInt.neg
    cases (promote m).ty.signed <;> simp [h1]

theorem CInt.eq_of {a b : CInt} (h1 : a.ty = b.ty) (h2 : a.bits = b.bits) : a = b := by
  cases a
  cases b
  simp only at h1 h2
  rw [h1, h2]

theorem toInt_eq_zero_iff {v : CInt} (hv : v.WF) : v.toInt = 0 ↔ v.bits = 0 := by
  unfold CInt.WF at hv
  unfold CInt.toInt
  have hc : (2 : Int) ^ v.ty.width = ((2 ^ v.ty.width : Nat) : Int) := by push_cast; rfl
  rw [hc]
  generalize 2 ^ v.ty.width = k at hv
  split
  · rename_i hneg
    constructor
    · intro h
      omega
    · intro h
      simp [CInt.neg, h] at hneg
  · exact Int.natCast_eq_zero

theorem convert_same_width {x : CInt} (hx : x.WF) {t : CType} (hw : x.ty.width = t.width) :
    (convert t x).bits = x.bits := by
  apply Nat.eq_of_testBit_eq
  intro i
  rw [convert_testBit hx]
  by_cases hi : i < t.width
  · simp [CInt.bitAt, hw, hi]
  · rw [testBit_of_wf hx (by omega)]
    simp [hi]

theorem SET_BITS_of_zero (reg mask : CInt) {v : CInt} (hv : v.WF) (h : v.bits = 0) :
    SET_BITS reg mask v = andAssign reg (bnot mask) := by
  unfold SET_BITS
  rw [if_pos ((ceq_zero_iff hv).2 h)]

theorem SET_BITS_of_ne_zero (reg mask : CInt) {v : CInt} (hv : v.WF) (h : v.bits ≠ 0) :
    SET_BITS reg mask v = orAssign reg mask := by
  unfold SET_BITS
  rw [if_neg (fun hc => h ((ceq_zero_iff hv).1 hc))]

theorem SET_BITS_ty (reg mask v : CInt) : (SET_BITS reg mask v).ty = reg.ty := by
  unfold SET_BITS
  split <;> rfl

theorem SET_BITS_wf (reg mask v : CInt) : (SET_BITS reg mask v).WF := by
  unfold SET_BITS
  split
  · exact convert_wf _ _
  · exact convert_wf _ _

/-- Bits of `reg` after `SET_BITS(reg, mask, value)` with a non-zero `value`. -/
theorem SET_BITS_set_testBit {reg mask v : CInt} (hr : reg.WF) (hm : mask.WF) (hv : v.WF)
    (h : v.bits ≠ 0) (i : Nat) :
    (SET_BITS reg mask v).bits.testBit i
      = (decide (i < reg.ty.width) && (reg.bits.testBit i || mask.bitAt i)) := by
  rw [SET_BITS_of_ne_zero reg mask hv h, orAssign_testBit hr hm]

/-- Bits of `reg` after `SET_BITS(reg, mask, value)` with a zero `value`. -/
theorem SET_BITS_clear_testBit {reg mask v : CInt} (hr : reg.WF) (hm : mask.WF) (hv : v.WF)
    (h : v.bits = 0) (i : Nat) :
    (SET_BITS reg mask v).bits.testBit i
      = (decide (i < reg.ty.width) && (reg.bits.testBit i
          && (decide (i < (promote mask).ty.width ∨ (promote mask).ty.signed = true)
            && !mask.bitAt i))) := by
  rw [SET_BITS_of_zero reg mask hv h, andAssign_testBit hr (bnot_wf mask), bnot_bitAt hm]

/-- The complement `~mask` reaches bit `i` (the promoted type of `mask` covers the bit
or is signed) exactly when the type of `mask` is signed, narrower than `int`, or wider
than `i`. -/
theorem promote_covers_iff (mask : CInt) (i : Nat) :
    (i < (promote mask).ty.width ∨ (promote mask).ty.signed = true)
      ↔ (mask.ty.signed = true ∨ mask.ty.width < INT_WIDTH ∨ i < mask.ty.width) := by
  rw [promote_ty]
  unfold promoteType
  split
  · rename_i h
    simp [cint, h]
  · rename_i h
    simp only [h, false_or]
    exact Or.comm

/-! ## Bit-level facts about SET_BITS -/

/-- The statement form of `SET_BITS` evaluates the argument `value` once, on the
initial state, and stores what `SET_BITS` computes from that one result. -/
theorem SET_BITS_stmt_eq {σ : Type} (load : σ → CInt) (store : CInt → σ → σ) (m : CInt)
    (value : σ → CInt × σ) (s : σ) :
    SET_BITS_stmt load store (fun t => (m, t)) value s
      = store (SET_BITS (load (value s).2) m (value s).1) (value s).2 := by
  unfold SET_BITS_stmt SET_BITS
  by_cases h : ceq (value s).1 (intLit 0) = true
  · simp [h]
  · simp [h]

/-- Bit `i` of `reg` after `SET_BITS(reg, mask, value)`, when `value` is non-zero or
the type of `mask` is signed, narrower than `int`, or wider than `i`. -/
theorem SET_BITS_testBit {reg mask v : CInt} (hr : reg.WF) (hm : mask.WF) (hv : v.WF)
    {i : Nat} (hi : i < reg.ty.width)
    (h : v.toInt ≠ 0 ∨ mask.ty.signed = true ∨ mask.ty.width < INT_WIDTH
          ∨ i < mask.ty.width) :
    (SET_BITS reg mask v).bits.testBit i
      = if mask.bitAt i = true then decide (v.toInt ≠ 0) else reg.bits.testBit i := by
  by_cases hz : v.bits = 0
  · have hz2 : v.toInt = 0 := (toInt_eq_zero_iff hv).2 hz
    have hc : i < (promote mask).ty.width ∨ (promote mask).ty.signed = true := by
      rcases h with h | h
      · exact absurd hz2 h
      · exact (promote_covers_iff mask i).2 h
    rw [SET_BITS_clear_testBit hr hm hv hz]
    cases hb : mask.bitAt i <;> simp [hi, hc, hz2]
  · have hz2 : v.toInt ≠ 0 := fun hc => hz ((toInt_eq_zero_iff hv).1 hc)
    rw [SET_BITS_set_testBit hr hm hv hz]
    cases hb : mask.bitAt i <;> simp [hi, hz2]

/-- Bit `i` of `reg` after `SET_BITS(reg, mask, 0)` is cleared when the type of `mask`
is unsigned, at least as wide as `int`, and no wider than `i`. -/
theorem SET_BITS_testBit_above {reg mask v : CInt} (hr : reg.WF) (hm : mask.WF) (hv : v.WF)
    (i : Nat) (hz : v.toInt = 0) (hs : mask.ty.signed = false)
    (hw : INT_WIDTH ≤ mask.ty.width) (hi : mask.ty.width ≤ i) :
    (SET_BITS reg mask v).bits.testBit i = false := by
  have hc : ¬ (i < (promote mask).ty.width ∨ (promote mask).ty.signed = true) := by
    rw [promote_covers_iff]
    simp only [hs, Bool.false_eq_true, false_or]
    omega
  rw [SET_BITS_clear_testBit hr hm hv ((toInt_eq_zero_iff hv).1 hz)]
  simp [hc]

/-! ## Arithmetic facts about the conversions -/

theorem two_pow_cast (n : Nat) : ((2 ^ n : Nat) : Int) = (2 : Int) ^ n := by
  push_cast
  rfl

/-- The value of a C integer is congruent to its pattern modulo `2 ^ width`. -/
theorem toInt_modEq (x : CInt) : x.toInt ≡ (x.bits : Int) [ZMOD 2 ^ x.ty.width] := by
  unfold CInt.toInt
  split
  · have h : ((x.bits : Int) - 2 ^ x.ty.width) = (x.bits : Int) + 2 ^ x.ty.width * (-1) := by
      ring
    rw [h]
    exact Int.modEq_add_fac_self
  · exact Int.ModEq.refl _

/-- Conversion keeps the value modulo `2 ^ width` of the target type. -/
theorem convert_modEq (t : CType) (x : CInt) :
    ((convert t x).bits : Int) ≡ x.toInt [ZMOD 2 ^ t.width] := by
  have hd : (2 : Int) ^ t.width ∣ 2 ^ x.ty.width * 2 ^ (t.width - x.ty.width) := by
    rw [← pow_add]
    exact pow_dvd_pow 2 (by omega)
  unfold convert CInt.toInt
  simp only
  split
  · have h1 : 1 ≤ 2 ^ (t.width - x.ty.width) := Nat.two_pow_pos _
    rw [Int.ModEq, Int.natCast_mod, two_pow_cast, Int.emod_emod_of_dvd _ (dvd_refl _)]
    apply Int.ModEq.symm
    apply (Int.modEq_iff_dvd).2
    push_cast [h1]
    have h2 : (x.bits : Int) + 2 ^ x.ty.width * (2 ^ (t.width - x.ty.width) - 1)
        - ((x.bits : Int) - 2 ^ x.ty.width)
        = 2 ^ x.ty.width * 2 ^ (t.width - x.ty.width) := by ring
    rw [h2]
    exact hd
  · rw [Int.ModEq, Int.natCast_mod, two_pow_cast, Int.emod_emod_of_dvd _ (dvd_refl _)]

/-- The integer promotions keep the value. -/
theorem promote_toInt {x : CInt} (hx : x.WF) : (promote x).toInt = x.toInt := by
  unfold promote
  split
  · rename_i h
    have hsign := convert_cint_neg hx h
    have hpow : 2 ^ x.ty.width * 2 ^ (INT_WIDTH - x.ty.width) = 2 ^ INT_WIDTH := by
      rw [← pow_add]
      congr 1
      omega
    have hB : 1 ≤ 2 ^ (INT_WIDTH - x.ty.width) := Nat.two_pow_pos _
    have hA : 1 ≤ 2 ^ x.ty.width := Nat.two_pow_pos _
    unfold CInt.WF at hx
    have hle : 2 ^ x.ty.width ≤ 2 ^ INT_WIDTH :=
      Nat.pow_le_pow_right (by decide) (Nat.le_of_lt h)
    unfold CInt.toInt
    rw [hsign]
    by_cases hn : x.neg = true
    · have hmul : 2 ^ x.ty.width * (2 ^ (INT_WIDTH - x.ty.width) - 1)
          = 2 ^ INT_WIDTH - 2 ^ x.ty.width := by
        rw [Nat.mul_sub, hpow, Nat.mul_one]
      have hb : (convert cint x).bits = x.bits + (2 ^ INT_WIDTH - 2 ^ x.ty.width) := by
        unfold convert
        simp only [hn, if_true, cint, hmul]
        apply Nat.mod_eq_of_lt
        omega
      have hty : (convert cint x).ty.width = INT_WIDTH := rfl
      simp only [hn, if_true]
      rw [hb, hty]
      have e1 := two_pow_cast x.ty.width
      have e2 := two_pow_cast INT_WIDTH
      rw [← e1, ← e2]
      generalize 2 ^ x.ty.width = A at *
      generalize 2 ^ INT_WIDTH = C at *
      omega
    · have hb : (convert cint x).bits = x.bits := by
        unfold convert
        simp only [hn, cint]
        exact Nat.mod_eq_of_lt (Nat.lt_of_lt_of_le hx hle)
      simp [hn, hb]
  · rfl

/-- The sum `a + b` is the sum of the values, modulo `2 ^ width` of the common type. -/
theorem add_modEq {a b : CInt} (ha : a.WF) (hb : b.WF) :
    ((add a b).bits : Int) ≡ a.toInt + b.toInt [ZMOD 2 ^ (add a b).ty.width] := by
  unfold add binop
  simp only
  have h1 := convert_modEq (common (promote a).ty (promote b).ty) (promote a)
  have h2 := convert_modEq (common (promote a).ty (promote b).ty) (promote b)
  rw [promote_toInt ha] at h1
  rw [promote_toInt hb] at h2
  have h3 := Int.ModEq.add h1 h2
  refine Int.ModEq.trans ?_ h3
  rw [Int.natCast_mod, two_pow_cast]
  push_cast
  exact Int.mod_modEq _ _

/-- The address formed from `(p) + (i)`: the sum of the values modulo `2 ^ xlen`, when
the sum is formed at a width of at least `xlen`. -/
theorem toPtr_add {xlen : Nat} {p i : CInt} (hp : p.WF) (hi : i.WF)
    (hw : xlen ≤ (add p i).ty.width) :
    ((toPtr xlen (add p i) : Nat) : Int) = (p.toInt + i.toInt) % 2 ^ xlen := by
  have hd : (2 : Int) ^ xlen ∣ 2 ^ (add p i).ty.width := pow_dvd_pow 2 hw
  have h1 : ((toPtr xlen (add p i) : Nat) : Int) ≡ (add p i).toInt [ZMOD 2 ^ xlen] :=
    convert_modEq ⟨xlen, false⟩ (add p i)
  have h2 := Int.ModEq.of_dvd hd (toInt_modEq (add p i))
  have h3 := Int.ModEq.of_dvd hd (add_modEq hp hi)
  have h4 := (h1.trans h2).trans h3
  have hlt : toPtr xlen (add p i) < 2 ^ xlen := convert_wf ⟨xlen, false⟩ (add p i)
  have hlt2 : ((toPtr xlen (add p i) : Nat) : Int) < 2 ^ xlen := by
    rw [← two_pow_cast]
    exact Int.ofNat_lt.2 hlt
  rw [← h4.eq]
  exact (Int.emod_eq_of_lt (Int.ofNat_nonneg _) hlt2).symm

theorem add_ty (a b : CInt) : (add a b).ty = common (promoteType a.ty) (promoteType b.ty) := by
  unfold add binop
  simp only [promote_ty]

theorem promoteType_width (t : CType) : (promoteType t).width = max t.width INT_WIDTH := by
  unfold promoteType
  split
  · rename_i h
    simp only [cint]
    omega
  · rename_i h
    omega

theorem common_width (a b : CType) : (common a b).width = max a.width b.width := by
  unfold common
  split
  · rename_i h
    simp only [h]
    omega
  · split
    · rename_i h1 h2
      omega
    · rename_i h1 h2
      omega

/-- The width at which C forms `a + b`. -/
theorem add_width (a b : CInt) :
    (add a b).ty.width = max (max a.ty.width b.ty.width) INT_WIDTH := by
  rw [add_ty, common_width, promoteType_width, promoteType_width]
  omega

/-- The top bit of a pattern below `2 ^ (n + 1)` is set exactly from `2 ^ n` on. -/
theorem testBit_top {x n : Nat} (h : x < 2 ^ (n + 1)) : x.testBit n = decide (2 ^ n ≤ x) := by
  by_cases hx : 2 ^ n ≤ x
  · have hlt : x - 2 ^ n < 2 ^ n := by
      rw [Nat.pow_succ] at h
      omega
    have he : x = 2 ^ n + (x - 2 ^ n) := by omega
    rw [he, Nat.testBit_two_pow_add_eq, Nat.testBit_lt_two_pow hlt]
    simp
  · rw [Nat.testBit_lt_two_pow (Nat.lt_of_not_le hx)]
    simp [hx]

/-- The value of a C integer is its pattern wrapped into the range of its type. -/
theorem toInt_eq_wrapInt {y : CInt} (hy : y.WF) (hw : 0 < y.ty.width) :
    y.toInt = wrapInt y.ty (y.bits : Int) := by
  unfold CInt.WF at hy
  have hlt : y.bits < 2 ^ (y.ty.width - 1 + 1) := by
    rw [Nat.sub_add_cancel hw]
    exact hy
  have hmod : (y.bits : Int) % 2 ^ y.ty.width = (y.bits : Int) := by
    apply Int.emod_eq_of_lt (Int.ofNat_nonneg _)
    rw [← two_pow_cast]
    exact Int.ofNat_lt.2 hy
  have hdec : decide ((2 : Int) ^ (y.ty.width - 1) ≤ (y.bits : Int))
      = decide (2 ^ (y.ty.width - 1) ≤ y.bits) := by
    rw [← two_pow_cast]
    simp only [Nat.cast_le]
  unfold CInt.toInt CInt.neg wrapInt
  rw [hmod, testBit_top hlt, hdec]

theorem wrapInt_congr (t : CType) {a b : Int} (h : a ≡ b [ZMOD 2 ^ t.width]) :
    wrapInt t a = wrapInt t b := by
  unfold wrapInt
  rw [h.eq]

/-- The sum `a + b` has the value of the mathematical sum wrapped into the common type. -/
theorem add_toInt {a b : CInt} (ha : a.WF) (hb : b.WF) :
    (add a b).toInt = wrapInt (add a b).ty (a.toInt + b.toInt) := by
  have hw : 0 < (add a b).ty.width := by
    rw [add_width]
    unfold INT_WIDTH
    omega
  have hwf : (add a b).WF := binop_wf _ a b
  rw [toInt_eq_wrapInt hwf hw]
  exact wrapInt_congr _ (add_modEq ha hb)

/-- The cast of an integer to a pointer keeps its value modulo `2 ^ xlen`. -/
theorem toPtr_eq (xlen : Nat) (y : CInt) :
    ((toPtr xlen y : Nat) : Int) = y.toInt % 2 ^ xlen := by
  have h1 : ((toPtr xlen y : Nat) : Int) ≡ y.toInt [ZMOD 2 ^ xlen] :=
    convert_modEq ⟨xlen, false⟩ y
  have hlt : toPtr xlen y < 2 ^ xlen := convert_wf ⟨xlen, false⟩ y
  have hlt2 : ((toPtr xlen y : Nat) : Int) < 2 ^ xlen := by
    rw [← two_pow_cast]
    exact Int.ofNat_lt.2 hlt
  rw [← h1.eq]
  exact (Int.emod_eq_of_lt (Int.ofNat_nonneg _) hlt2).symm

/-- The address formed from an integer `p`: the sum of the values, wrapped into the
type at which C forms it, modulo `2 ^ xlen`. -/
theorem sumAddr_int (xlen : Nat) {p i : CInt} (hp : p.WF) (hi : i.WF) :
    ((sumAddr xlen (Base.int p) i : Nat) : Int)
      = wrapInt (common (promoteType p.ty) (promoteType i.ty)) (p.toInt + i.toInt)
          % 2 ^ xlen := by
  have h : sumAddr xlen (Base.int p) i = toPtr xlen (add p i) := rfl
  rw [h, toPtr_eq, add_toInt hp hi, add_ty]

/-- The address formed from a pointer `p`: the index is scaled by `sizeof(*p)`. -/
theorem sumAddr_ptr (xlen a size : Nat) (i : CInt) :
    ((sumAddr xlen (Base.ptr a size) i : Nat) : Int)
      = ((a : Int) + i.toInt * (size : Int)) % 2 ^ xlen := by
  have h : sumAddr xlen (Base.ptr a size) i
      = (a + (convert ⟨xlen, true⟩ i).bits * size) % 2 ^ xlen := rfl
  have hc : ((convert ⟨xlen, true⟩ i).bits : Int) ≡ i.toInt [ZMOD 2 ^ xlen] :=
    convert_modEq ⟨xlen, true⟩ i
  rw [h, Int.natCast_mod, two_pow_cast]
  push_cast
  exact ((hc.mul_right _).add_left _).eq

/-- The width at which `base + offset` is formed, for a base of type `unsigned long`
on a target with `xlen` of at least the width of `int`. -/
theorem add_UL_width {xlen : Nat} (hx : INT_WIDTH ≤ xlen) (n : Nat) (i : CInt) :
    xlen ≤ (add (_AC n (UL xlen)) i).ty.width := by
  have h : (promote (_AC n (UL xlen))).ty.width = xlen := by
    unfold promote
    rw [if_neg (by simp only [_AC, UL]; omega)]
    rfl
  have h2 := common_width_left (promote (_AC n (UL xlen))).ty (promote i).ty
  rw [h] at h2
  exact h2

theorem AC_UL_toInt {xlen : Nat} (hx : xlen = 32 ∨ xlen = 64) {n : Nat} (hn : n < 2 ^ 32) :
    (_AC n (UL xlen)).toInt = (n : Int) := by
  have hle : 2 ^ 32 ≤ 2 ^ xlen := by
    rcases hx with rfl | rfl <;> decide
  unfold CInt.toInt CInt.neg _AC UL
  simp only [Bool.false_and, Bool.false_eq_true, if_false]
  rw [Nat.mod_eq_of_lt (Nat.lt_of_lt_of_le hn hle)]

/-- The location `_REG32(base, offset)` for a base `_AC(n, UL)` below `2 ^ 32`. -/
theorem REG32_base {xlen : Nat} (hx : xlen = 32 ∨ xlen = 64) {n : Nat} (hn : n < 2 ^ 32)
    {offset : CInt} (ho : offset.WF) :
    ((_REG32 xlen (Base.int (_AC n (UL xlen))) offset).addr : Int)
        = ((n : Int) + offset.toInt) % 2 ^ xlen
      ∧ (_REG32 xlen (Base.int (_AC n (UL xlen))) offset).width = 32 := by
  have hi : INT_WIDTH ≤ xlen := by
    rcases hx with rfl | rfl <;> decide
  have hwf : (_AC n (UL xlen)).WF := by
    unfold CInt.WF _AC
    exact Nat.mod_lt _ (Nat.two_pow_pos _)
  have h := toPtr_add hwf ho (add_UL_width hi n offset)
  rw [AC_UL_toInt hx hn] at h
  exact ⟨h, rfl⟩

/-- An address of the form `(n + k) mod 2 ^ xlen` is a multiple of 4 when `n` and `k` are. -/
theorem aligned_of_modEq {xlen : Nat} (hx : xlen = 32 ∨ xlen = 64) {a n : Nat} {k : Int}
    (h : (a : Int) = ((n : Int) + k) % 2 ^ xlen) (hn : n % 4 = 0) (hk : k % 4 = 0) :
    a % 4 = 0 := by
  have hd : (4 : Int) ∣ 2 ^ xlen := by
    rcases hx with rfl | rfl <;> decide
  have h1 : (a : Int) % 4 = ((n : Int) + k) % 4 := by
    rw [h]
    exact Int.emod_emod_of_dvd _ hd
  omega

/-! ## The constants and the register macros -/

theorem MCAUSE_INT_eq {xlen : Nat} (hx : xlen = 32 ∨ xlen = 64) :
    MCAUSE_INT xlen = Except.ok ⟨⟨xlen, false⟩, 2 ^ (xlen - 1)⟩ := by
  rcases hx with rfl | rfl <;> rfl

theorem MCAUSE_CAUSE_eq {xlen : Nat} (hx : xlen = 32 ∨ xlen = 64) :
    MCAUSE_CAUSE xlen = Except.ok ⟨⟨xlen, false⟩, 2 ^ (xlen - 1) - 1⟩ := by
  rcases hx with rfl | rfl <;> rfl

/-- C3: for every offset and `XLEN` of 32 or 64, `CLINT_REG(offset)`, `PLIC_REG(offset)`,
`UART0_REG(offset)` and `UART1_REG(offset)` each denote the 32-bit location at address
base + offset modulo `2 ^ XLEN`, with the bases `0x02000000`, `0x0C000000`, `0x10013000`
and `0x10023000`; in particular `CLINT_REG(0)` is the 32-bit location at `0x02000000`. -/
theorem REG_macros_address (xlen : Nat) (offset : CInt) (hx : xlen = 32 ∨ xlen = 64)
    (ho : offset.WF) :
    (((CLINT_REG xlen offset).addr : Int) = (0x02000000 + offset.toInt) % 2 ^ xlen
        ∧ (CLINT_REG xlen offset).width = 32)
      ∧ (((PLIC_REG xlen offset).addr : Int) = (0x0C000000 + offset.toInt) % 2 ^ xlen
        ∧ (PLIC_REG xlen offset).width = 32)
      ∧ (((UART0_REG xlen offset).addr : Int) = (0x10013000 + offset.toInt) % 2 ^ xlen
        ∧ (UART0_REG xlen offset).width = 32)
      ∧ (((UART1_REG xlen offset).addr : Int) = (0x10023000 + offset.toInt) % 2 ^ xlen
        ∧ (UART1_REG xlen offset).width = 32)
      ∧ CLINT_REG xlen (intLit 0) = ⟨0x02000000, 32⟩ := by
  refine ⟨REG32_base hx (by decide) ho, REG32_base hx (by decide) ho,
    REG32_base hx (by decide) ho, REG32_base hx (by decide) ho, ?_⟩
  rcases hx with rfl | rfl <;> decide

/-- C3, on RV32 at the offset `0xBFF8` (of type `int`). -/
theorem REG_macros_address_witness :
    ((32 : Nat) = 32 ∨ (32 : Nat) = 64) ∧ (intLit 0xBFF8).WF
      ∧ CLINT_REG 32 (intLit 0xBFF8) = ⟨0x0200BFF8, 32⟩
      ∧ ((CLINT_REG 32 (intLit 0xBFF8)).addr : Int)
          = (0x02000000 + (intLit 0xBFF8).toInt) % 2 ^ 32 :=
  ⟨Or.inl rfl, by decide, by decide,
    (REG_macros_address 32 (intLit 0xBFF8) (Or.inl rfl) (by decide)).1.1⟩

/-- C4: `MCAUSE_INT` and `MCAUSE_CAUSE` take the form matching the register width: for
`XLEN` of 32 or 64, `MCAUSE_INT` is `2 ^ (XLEN - 1)` (only the top bit set) and
`MCAUSE_CAUSE` is `2 ^ (XLEN - 1) - 1` (all bits below the top bit set), both unsigned
and `XLEN` bits wide; that is `0x80000000` and `0x7FFFFFFF` for 32, and
`0x8000000000000000` and `0x7FFFFFFFFFFFFFFF` for 64. -/
theorem MCAUSE_values (xlen : Nat) (hx : xlen = 32 ∨ xlen = 64) :
    MCAUSE_INT xlen = Except.ok ⟨⟨xlen, false⟩, 2 ^ (xlen - 1)⟩
      ∧ MCAUSE_CAUSE xlen = Except.ok ⟨⟨xlen, false⟩, 2 ^ (xlen - 1) - 1⟩
      ∧ MCAUSE_INT 32 = Except.ok ⟨⟨32, false⟩, 0x80000000⟩
      ∧ MCAUSE_CAUSE 32 = Except.ok ⟨⟨32, false⟩, 0x7FFFFFFF⟩
      ∧ MCAUSE_INT 64 = Except.ok ⟨⟨64, false⟩, 0x8000000000000000⟩
      ∧ MCAUSE_CAUSE 64 = Except.ok ⟨⟨64, false⟩, 0x7FFFFFFFFFFFFFFF⟩ := by
  exact ⟨MCAUSE_INT_eq hx, MCAUSE_CAUSE_eq hx, rfl, rfl, rfl, rfl⟩

/-- C4, at `XLEN` of 64. -/
theorem MCAUSE_values_witness :
    ((64 : Nat) = 32 ∨ (64 : Nat) = 64)
      ∧ MCAUSE_INT 64 = Except.ok ⟨⟨64, false⟩, 2 ^ (64 - 1)⟩
      ∧ MCAUSE_CAUSE 64 = Except.ok ⟨⟨64, false⟩, 2 ^ (64 - 1) - 1⟩ :=
  ⟨Or.inr rfl, (MCAUSE_values 64 (Or.inr rfl)).1, (MCAUSE_values 64 (Or.inr rfl)).2.1⟩

/-- C5: the selection of `MCAUSE_INT` and `MCAUSE_CAUSE` fails with the error
"Unknown XLEN" if and only if `XLEN` is neither 32 nor 64, leaving both constants
without a definition; for `XLEN` of 32 and of 64 it succeeds and both constants have
their definition. -/
theorem MCAUSE_unknown_xlen (xlen : Nat) :
    (MCAUSE_defs xlen = Except.error "Unknown XLEN" ↔ (xlen ≠ 32 ∧ xlen ≠ 64))
      ∧ (MCAUSE_INT xlen = Except.error "Unknown XLEN" ↔ (xlen ≠ 32 ∧ xlen ≠ 64))
      ∧ (MCAUSE_CAUSE xlen = Except.error "Unknown XLEN" ↔ (xlen ≠ 32 ∧ xlen ≠ 64))
      ∧ ((∃ a b, MCAUSE_defs xlen = Except.ok (a, b) ∧ MCAUSE_INT xlen = Except.ok a
            ∧ MCAUSE_CAUSE xlen = Except.ok b) ↔ (xlen = 32 ∨ xlen = 64))
      ∧ (∃ a b, MCAUSE_defs 32 = Except.ok (a, b))
      ∧ (∃ a b, MCAUSE_defs 64 = Except.ok (a, b)) := by
  refine ⟨?_, ?_, ?_, ?_, ⟨_, _, rfl⟩, ⟨_, _, rfl⟩⟩
  · by_cases h32 : xlen = 32
    · subst h32
      simp [MCAUSE_defs]
    · by_cases h64 : xlen = 64
      · subst h64
        simp [MCAUSE_defs]
      · simp [MCAUSE_defs, h32, h64]
  · by_cases h32 : xlen = 32
    · subst h32
      simp [MCAUSE_INT, MCAUSE_defs, Except.map]
    · by_cases h64 : xlen = 64
      · subst h64
        simp [MCAUSE_INT, MCAUSE_defs, Except.map]
      · simp [MCAUSE_INT, MCAUSE_defs, Except.map, h32, h64]
  · by_cases h32 : xlen = 32
    · subst h32
      simp [MCAUSE_CAUSE, MCAUSE_defs, Except.map]
    · by_cases h64 : xlen = 64
      · subst h64
        simp [MCAUSE_CAUSE, MCAUSE_defs, Except.map]
      · simp [MCAUSE_CAUSE, MCAUSE_defs, Except.map, h32, h64]
  · by_cases h32 : xlen = 32
    · subst h32
      simp [MCAUSE_INT, MCAUSE_CAUSE, MCAUSE_defs, Except.map]
    · by_cases h64 : xlen = 64
      · subst h64
        simp [MCAUSE_INT, MCAUSE_CAUSE, MCAUSE_defs, Except.map]
      · simp [MCAUSE_INT, MCAUSE_CAUSE, MCAUSE_defs, Except.map, h32, h64]

/-- C6 as stated fails in two ways.  On RV64 with the 32-bit unsigned base `0xFFFFFFFF`
and the index `1` the sum is formed at 32 bits and wraps, so all three macros address
`0`, not `p + i = 0x100000000`.  With a pointer base the index is scaled: for a pointer to
4-byte objects at `0x10013000` and the index `1` the address is `0x10013004`, so `i` is
not a byte offset there. -/
theorem REG_address_counterexample :
    _REG16 64 (Base.int ⟨⟨32, false⟩, 0xFFFFFFFF⟩) (intLit 1) = ⟨0, 16⟩
      ∧ _REG32 64 (Base.int ⟨⟨32, false⟩, 0xFFFFFFFF⟩) (intLit 1) = ⟨0, 32⟩
      ∧ _REG64 64 (Base.int ⟨⟨32, false⟩, 0xFFFFFFFF⟩) (intLit 1) = ⟨0, 64⟩
      ∧ (CInt.mk ⟨32, false⟩ 0xFFFFFFFF).toInt + (intLit 1).toInt = 0x100000000
      ∧ _REG32 32 (Base.ptr 0x10013000 4) (intLit 1) = ⟨0x10013004, 32⟩
      ∧ ¬ (∀ (xlen : Nat) (p i : CInt), xlen = 32 ∨ xlen = 64 → p.WF → i.WF →
            ((_REG32 xlen (Base.int p) i).addr : Int) = (p.toInt + i.toInt) % 2 ^ xlen)
      ∧ ¬ (∀ (xlen a size : Nat) (i : CInt), xlen = 32 ∨ xlen = 64 → i.WF →
            ((_REG32 xlen (Base.ptr a size) i).addr : Int)
              = ((a : Int) + i.toInt) % 2 ^ xlen) := by
  refine ⟨by decide, by decide, by decide, by decide, by decide, ?_, ?_⟩
  · intro h
    have h1 := h 64 ⟨⟨32, false⟩, 0xFFFFFFFF⟩ (intLit 1) (Or.inr rfl) (by decide) (by decide)
    revert h1
    decide
  · intro h
    have h1 := h 32 0x10013000 4 (intLit 1) (Or.inl rfl) (by decide)
    revert h1
    decide

/-- C6, amended: for every base `p` and index `i`, `_REG16(p, i)`, `_REG32(p, i)` and
`_REG64(p, i)` denote the location at one and the same address, accessed with 16, 32
and 64 bits; the address does not depend on the access width.  It is the address of the
C sum `(p) + (i)`.  For an integer `p` it is the sum of the two values, wrapped into the
type at which C forms the sum (the common type of the promoted operands, as wide as the
wider of `p`, `i` and `int`), modulo `2 ^ XLEN`; so it is `p + i` modulo `2 ^ XLEN`, with
`i` a byte offset, whenever `p` or `i` is at least `XLEN` bits wide.  For a pointer `p`
it is `p + i * sizeof(*p)` modulo `2 ^ XLEN`: the index is scaled by the size of the
objects `p` points to, never by the access width. -/
theorem REG_same_address (xlen : Nat) (p i : CInt) (a size : Nat) (hp : p.WF) (hi : i.WF) :
    (∀ b : Base, (_REG16 xlen b i).addr = (_REG32 xlen b i).addr
        ∧ (_REG32 xlen b i).addr = (_REG64 xlen b i).addr
        ∧ (_REG16 xlen b i).width = 16 ∧ (_REG32 xlen b i).width = 32
        ∧ (_REG64 xlen b i).width = 64)
      ∧ ((_REG32 xlen (Base.int p) i).addr : Int)
          = wrapInt (common (promoteType p.ty) (promoteType i.ty)) (p.toInt + i.toInt)
              % 2 ^ xlen
      ∧ (common (promoteType p.ty) (promoteType i.ty)).width
          = max (max p.ty.width i.ty.width) INT_WIDTH
      ∧ (xlen ≤ max (max p.ty.width i.ty.width) INT_WIDTH →
          ((_REG32 xlen (Base.int p) i).addr : Int) = (p.toInt + i.toInt) % 2 ^ xlen)
      ∧ ((_REG32 xlen (Base.ptr a size) i).addr : Int)
          = ((a : Int) + i.toInt * (size : Int)) % 2 ^ xlen := by
  refine ⟨fun b => ⟨rfl, rfl, rfl, rfl, rfl⟩, sumAddr_int xlen hp hi, ?_, ?_,
    sumAddr_ptr xlen a size i⟩
  · rw [← add_ty, add_width]
  · intro hw
    rw [← add_width] at hw
    exact toPtr_add hp hi hw

/-- C6 amended, on RV64 at the 32-bit unsigned base `0xFFFFFFFF` with the index `1`,
where the sum wraps at 32 bits and the address is `0`, and at a pointer to 4-byte
objects at `0x10013000`, where the address is `0x10013004`. -/
theorem REG_same_address_witness :
    (CInt.mk ⟨32, false⟩ 0xFFFFFFFF).WF ∧ (intLit 1).WF
      ∧ _REG32 64 (Base.int ⟨⟨32, false⟩, 0xFFFFFFFF⟩) (intLit 1) = ⟨0, 32⟩
      ∧ ((_REG32 64 (Base.int ⟨⟨32, false⟩, 0xFFFFFFFF⟩) (intLit 1)).addr : Int)
          = wrapInt (common (promoteType ⟨32, false⟩) (promoteType (intLit 1).ty))
              ((CInt.mk ⟨32, false⟩ 0xFFFFFFFF).toInt + (intLit 1).toInt) % 2 ^ 64
      ∧ wrapInt (common (promoteType ⟨32, false⟩) (promoteType (intLit 1).ty))
            ((CInt.mk ⟨32, false⟩ 0xFFFFFFFF).toInt + (intLit 1).toInt) % 2 ^ 64 = 0
      ∧ ((_REG32 64 (Base.ptr 0x10013000 4) (intLit 1)).addr : Int)
          = ((0x10013000 : Nat) + (intLit 1).toInt * ((4 : Nat) : Int)) % 2 ^ 64
      ∧ _REG32 64 (Base.ptr 0x10013000 4) (intLit 1) = ⟨0x10013004, 32⟩ :=
  ⟨by decide, by decide, by decide,
    (REG_same_address 64 ⟨⟨32, false⟩, 0xFFFFFFFF⟩ (intLit 1) 0x10013000 4
      (by decide) (by decide)).2.1,
    by decide,
    (REG_same_address 64 ⟨⟨32, false⟩, 0xFFFFFFFF⟩ (intLit 1) 0x10013000 4
      (by decide) (by decide)).2.2.2.2,
    by decide⟩

/-- C9: for `XLEN` of 32 or 64, `MCAUSE_INT` and `MCAUSE_CAUSE` partition the
`XLEN`-bit trap-cause register: their AND is 0, their OR is `2 ^ XLEN - 1`, and every
`XLEN`-bit value `x` is `(x AND MCAUSE_INT) OR (x AND MCAUSE_CAUSE)`. -/
theorem MCAUSE_partition (xlen : Nat) (hx : xlen = 32 ∨ xlen = 64) :
    ∃ a b, MCAUSE_INT xlen = Except.ok a ∧ MCAUSE_CAUSE xlen = Except.ok b
      ∧ a.bits &&& b.bits = 0
      ∧ a.bits ||| b.bits = 2 ^ xlen - 1
      ∧ ∀ x, x < 2 ^ xlen → x = (x &&& a.bits) ||| (x &&& b.bits) := by
  have hpos : 0 < xlen := by
    rcases hx with rfl | rfl <;> decide
  refine ⟨_, _, MCAUSE_INT_eq hx, MCAUSE_CAUSE_eq hx, ?_, ?_, ?_⟩
  · rcases hx with rfl | rfl <;> decide
  · rcases hx with rfl | rfl <;> decide
  · intro x hlt
    apply Nat.eq_of_testBit_eq
    intro i
    simp only [Nat.testBit_or, Nat.testBit_and, Nat.testBit_two_pow,
      Nat.testBit_two_pow_sub_one]
    by_cases hi : i < xlen
    · cases hb : x.testBit i
      · simp
      · have : xlen - 1 = i ∨ i < xlen - 1 := by omega
        rcases this with h | h
        · simp [h]
        · simp [h]
    · rw [Nat.testBit_lt_two_pow
        (Nat.lt_of_lt_of_le hlt (Nat.pow_le_pow_right (by decide) (Nat.le_of_not_lt hi)))]
      simp

/-- C9, at `XLEN` of 32. -/
theorem MCAUSE_partition_witness :
    ((32 : Nat) = 32 ∨ (32 : Nat) = 64)
      ∧ ∃ a b, MCAUSE_INT 32 = Except.ok a ∧ MCAUSE_CAUSE 32 = Except.ok b
        ∧ a.bits &&& b.bits = 0
        ∧ a.bits ||| b.bits = 2 ^ 32 - 1
        ∧ ∀ x, x < 2 ^ 32 → x = (x &&& a.bits) ||| (x &&& b.bits) :=
  ⟨Or.inl rfl, MCAUSE_partition 32 (Or.inl rfl)⟩

/-- C10: for `XLEN` of 32 or 64 the five base addresses `CLINT_BASE_ADDR`,
`PLIC_BASE_ADDR`, `UART0_BASE_ADDR`, `UART1_BASE_ADDR` and `MEM_BASE_ADDR` are strictly
increasing in that order, hence pairwise distinct, each below `2 ^ 32` and each a
multiple of 4; so for every offset that is a multiple of 4 the address accessed by
`CLINT_REG`, `PLIC_REG`, `UART0_REG` or `UART1_REG` is a multiple of 4. -/
theorem base_addresses_aligned (xlen : Nat) (offset : CInt) (hx : xlen = 32 ∨ xlen = 64)
    (ho : offset.WF) (h4 : offset.toInt % 4 = 0) :
    ((CLINT_BASE_ADDR xlen).bits < (PLIC_BASE_ADDR xlen).bits
        ∧ (PLIC_BASE_ADDR xlen).bits < (UART0_BASE_ADDR xlen).bits
        ∧ (UART0_BASE_ADDR xlen).bits < (UART1_BASE_ADDR xlen).bits
        ∧ (UART1_BASE_ADDR xlen).bits < (MEM_BASE_ADDR xlen).bits
        ∧ (MEM_BASE_ADDR xlen).bits < 2 ^ 32)
      ∧ [(CLINT_BASE_ADDR xlen).bits, (PLIC_BASE_ADDR xlen).bits, (UART0_BASE_ADDR xlen).bits,
          (UART1_BASE_ADDR xlen).bits, (MEM_BASE_ADDR xlen).bits].Nodup
      ∧ ((CLINT_BASE_ADDR xlen).bits % 4 = 0 ∧ (PLIC_BASE_ADDR xlen).bits % 4 = 0
        ∧ (UART0_BASE_ADDR xlen).bits % 4 = 0 ∧ (UART1_BASE_ADDR xlen).bits % 4 = 0
        ∧ (MEM_BASE_ADDR xlen).bits % 4 = 0)
      ∧ ((CLINT_REG xlen offset).addr % 4 = 0 ∧ (PLIC_REG xlen offset).addr % 4 = 0
        ∧ (UART0_REG xlen offset).addr % 4 = 0 ∧ (UART1_REG xlen offset).addr % 4 = 0) := by
  refine ⟨?_, ?_, ?_, ?_, ?_, ?_, ?_⟩
  · rcases hx with rfl | rfl <;> decide
  · rcases hx with rfl | rfl <;> decide
  · rcases hx with rfl | rfl <;> decide
  · exact aligned_of_modEq hx (REG32_base hx (by decide) ho).1 (by decide) h4
  · exact aligned_of_modEq hx (REG32_base hx (by decide) ho).1 (by decide) h4
  · exact aligned_of_modEq hx (REG32_base hx (by decide) ho).1 (by decide) h4
  · exact aligned_of_modEq hx (REG32_base hx (by decide) ho).1 (by decide) h4

/-- C10, on RV32 at the offset `0x2004` from the PLIC base: the address `0x0C002004` is
a multiple of 4. -/
theorem base_addresses_aligned_witness :
    ((32 : Nat) = 32 ∨ (32 : Nat) = 64) ∧ (intLit 0x2004).WF ∧ (intLit 0x2004).toInt % 4 = 0
      ∧ PLIC_REG 32 (intLit 0x2004) = ⟨0x0C002004, 32⟩
      ∧ (PLIC_REG 32 (intLit 0x2004)).addr % 4 = 0 :=
  ⟨Or.inl rfl, by decide, by decide, by decide,
    (base_addresses_aligned 32 (intLit 0x2004) (Or.inl rfl) (by decide) (by decide)).2.2.2.2.1⟩

/-! ## SET_BITS -/

/-- C1: for every register value `reg` and every mask of the same bit width,
`SET_BITS(reg, mask, 0)` leaves `reg` equal to (old `reg`) AND (NOT `mask`), the
complement taken at that width; in particular `SET_BITS(MY_REG, 0x00000007, 0)` on a
32-bit register has the effect of `MY_REG &= ~0x7`. -/
theorem SET_BITS_zero_clears (reg mask : CInt) (hr : reg.WF) (hm : mask.WF)
    (hw : mask.ty.width = reg.ty.width) :
    SET_BITS reg mask (intLit 0)
        = ⟨reg.ty, reg.bits &&& ((2 ^ reg.ty.width - 1) ^^^ mask.bits)⟩
      ∧ (reg.ty.width = 32 →
          SET_BITS reg (intLit 0x00000007) (intLit 0) = ⟨reg.ty, reg.bits &&& 0xFFFFFFF8⟩) := by
  have key : ∀ m : CInt, m.WF → m.ty.width = reg.ty.width →
      SET_BITS reg m (intLit 0)
        = ⟨reg.ty, reg.bits &&& ((2 ^ reg.ty.width - 1) ^^^ m.bits)⟩ := by
    intro m hm hw
    apply CInt.eq_of
    · exact SET_BITS_ty _ _ _
    apply Nat.eq_of_testBit_eq
    intro i
    have h0 : (intLit 0).WF := by decide
    rw [SET_BITS_clear_testBit hr hm h0 (by decide)]
    simp only [Nat.testBit_and, Nat.testBit_xor, Nat.testBit_two_pow_sub_one]
    by_cases hi : i < reg.ty.width
    · have h1 : i < (promote m).ty.width :=
        Nat.lt_of_lt_of_le (hw ▸ hi) (promote_width_le m)
      have h2 : i < m.ty.width := hw ▸ hi
      simp [hi, h1, CInt.bitAt, h2]
    · rw [testBit_of_wf hr (Nat.le_of_not_lt hi)]
      simp [hi]
  refine ⟨key mask hm hw, ?_⟩
  intro h32
  have h7 := key (intLit 0x00000007) (by decide) (by rw [h32]; rfl)
  rw [h7, h32]
  rfl

/-- C1, at a 32-bit register holding all ones and the mask `0x00000007`. -/
theorem SET_BITS_zero_clears_witness :
    (CInt.mk ⟨32, false⟩ 0xFFFFFFFF).WF ∧ (CInt.mk ⟨32, false⟩ 0x00000007).WF
      ∧ (CInt.mk ⟨32, false⟩ 0x00000007).ty.width = (CInt.mk ⟨32, false⟩ 0xFFFFFFFF).ty.width
      ∧ (SET_BITS ⟨⟨32, false⟩, 0xFFFFFFFF⟩ ⟨⟨32, false⟩, 0x00000007⟩ (intLit 0)
            = ⟨⟨32, false⟩, 0xFFFFFFFF &&& ((2 ^ 32 - 1) ^^^ 0x00000007)⟩
          ∧ ((32 : Nat) = 32 →
              SET_BITS ⟨⟨32, false⟩, 0xFFFFFFFF⟩ (intLit 0x00000007) (intLit 0)
                = ⟨⟨32, false⟩, 0xFFFFFFFF &&& 0xFFFFFFF8⟩)) :=
  ⟨by decide, by decide, rfl,
    SET_BITS_zero_clears ⟨⟨32, false⟩, 0xFFFFFFFF⟩ ⟨⟨32, false⟩, 0x00000007⟩
      (by decide) (by decide) rfl⟩

/-- C2: for every register value `reg` and every mask of the same bit width,
`SET_BITS(reg, mask, 1)` leaves `reg` equal to (old `reg`) OR `mask`; in particular
`SET_BITS(MY_REG, 0x00000007, 1)` on a 32-bit register has the effect of `MY_REG |= 0x7`. -/
theorem SET_BITS_one_sets (reg mask : CInt) (hr : reg.WF) (hm : mask.WF)
    (hw : mask.ty.width = reg.ty.width) :
    SET_BITS reg mask (intLit 1) = ⟨reg.ty, reg.bits ||| mask.bits⟩
      ∧ (reg.ty.width = 32 →
          SET_BITS reg (intLit 0x00000007) (intLit 1) = ⟨reg.ty, reg.bits ||| 0x7⟩) := by
  have key : ∀ m : CInt, m.WF → m.ty.width = reg.ty.width →
      SET_BITS reg m (intLit 1) = ⟨reg.ty, reg.bits ||| m.bits⟩ := by
    intro m hm hw
    apply CInt.eq_of
    · exact SET_BITS_ty _ _ _
    apply Nat.eq_of_testBit_eq
    intro i
    have h1 : (intLit 1).WF := by decide
    rw [SET_BITS_set_testBit hr hm h1 (by decide)]
    simp only [Nat.testBit_or]
    by_cases hi : i < reg.ty.width
    · have h2 : i < m.ty.width := hw ▸ hi
      simp [hi, CInt.bitAt, h2]
    · rw [testBit_of_wf hr (Nat.le_of_not_lt hi),
        testBit_of_wf hm (hw ▸ Nat.le_of_not_lt hi)]
      simp [hi]
  refine ⟨key mask hm hw, ?_⟩
  intro h32
  exact key (intLit 0x00000007) (by decide) (by rw [h32]; rfl)

/-- C2, at a 32-bit register holding `0xF0` and the mask `0x00000007`. -/
theorem SET_BITS_one_sets_witness :
    (CInt.mk ⟨32, false⟩ 0xF0).WF ∧ (CInt.mk ⟨32, false⟩ 0x00000007).WF
      ∧ (CInt.mk ⟨32, false⟩ 0x00000007).ty.width = (CInt.mk ⟨32, false⟩ 0xF0).ty.width
      ∧ (SET_BITS ⟨⟨32, false⟩, 0xF0⟩ ⟨⟨32, false⟩, 0x00000007⟩ (intLit 1)
            = ⟨⟨32, false⟩, 0xF0 ||| 0x00000007⟩
          ∧ ((32 : Nat) = 32 →
              SET_BITS ⟨⟨32, false⟩, 0xF0⟩ (intLit 0x00000007) (intLit 1)
                = ⟨⟨32, false⟩, 0xF0 ||| 0x7⟩)) :=
  ⟨by decide, by decide, rfl,
    SET_BITS_one_sets ⟨⟨32, false⟩, 0xF0⟩ ⟨⟨32, false⟩, 0x00000007⟩
      (by decide) (by decide) rfl⟩

/-- C7: `SET_BITS` uses `value` only as a truth test.  For every `reg` and `mask` and
every two non-zero values `v1`, `v2`, `SET_BITS(reg, mask, v1)` and
`SET_BITS(reg, mask, v2)` leave `reg` with the same result, the result of the value
`1`, which is (old `reg`) OR `mask` with the mask taken at the type of `reg`; and a use
of the macro evaluates its argument `value` exactly once, whatever the value. -/
theorem SET_BITS_value_truth_test (reg mask v1 v2 : CInt) (hr : reg.WF) (hm : mask.WF)
    (hv1 : v1.WF) (hv2 : v2.WF) (h1 : v1.toInt ≠ 0) (h2 : v2.toInt ≠ 0) :
    SET_BITS reg mask v1 = SET_BITS reg mask v2
      ∧ SET_BITS reg mask v1 = SET_BITS reg mask (intLit 1)
      ∧ SET_BITS reg mask v1 = ⟨reg.ty, reg.bits ||| (convert reg.ty mask).bits⟩
      ∧ (∀ i, i < reg.ty.width →
          (SET_BITS reg mask v1).bits.testBit i = (reg.bits.testBit i || mask.bitAt i))
      ∧ (∀ (v : CInt) (n : Nat),
          SET_BITS_stmt Counted.load Counted.store (Counted.const mask) (Counted.tick v)
              ⟨reg, n⟩
            = ⟨SET_BITS reg mask v, n + 1⟩) := by
  have hb1 : v1.bits ≠ 0 := fun hc => h1 ((toInt_eq_zero_iff hv1).2 hc)
  have hb2 : v2.bits ≠ 0 := fun hc => h2 ((toInt_eq_zero_iff hv2).2 hc)
  have e1 := SET_BITS_of_ne_zero reg mask hv1 hb1
  have e2 := SET_BITS_of_ne_zero reg mask hv2 hb2
  have e3 : SET_BITS reg mask (intLit 1) = orAssign reg mask :=
    SET_BITS_of_ne_zero reg mask (by decide) (by decide)
  refine ⟨by rw [e1, e2], by rw [e1, e3], ?_, ?_, ?_⟩
  · apply CInt.eq_of
    · exact SET_BITS_ty _ _ _
    apply Nat.eq_of_testBit_eq
    intro i
    rw [SET_BITS_set_testBit hr hm hv1 hb1]
    simp only [Nat.testBit_or, convert_testBit hm]
    by_cases hi : i < reg.ty.width
    · simp [hi]
    · rw [testBit_of_wf hr (Nat.le_of_not_lt hi)]
      simp [hi]
  · intro i hi
    rw [SET_BITS_set_testBit hr hm hv1 hb1]
    simp [hi]
  · intro v n
    exact SET_BITS_stmt_eq Counted.load Counted.store mask (Counted.tick v) ⟨reg, n⟩

/-- C7, at a 32-bit register holding `0xF0`, the mask `0x0F` and the values `2` and
`0x100`: both leave `0xFF`, and the statement run from a count of 0 ends at a count of 1. -/
theorem SET_BITS_value_truth_test_witness :
    (CInt.mk ⟨32, false⟩ 0xF0).WF ∧ (CInt.mk ⟨32, false⟩ 0x0F).WF
      ∧ (intLit 2).WF ∧ (intLit 0x100).WF ∧ (intLit 2).toInt ≠ 0 ∧ (intLit 0x100).toInt ≠ 0
      ∧ SET_BITS ⟨⟨32, false⟩, 0xF0⟩ ⟨⟨32, false⟩, 0x0F⟩ (intLit 2)
          = SET_BITS ⟨⟨32, false⟩, 0xF0⟩ ⟨⟨32, false⟩, 0x0F⟩ (intLit 0x100)
      ∧ SET_BITS ⟨⟨32, false⟩, 0xF0⟩ ⟨⟨32, false⟩, 0x0F⟩ (intLit 2) = ⟨⟨32, false⟩, 0xFF⟩
      ∧ SET_BITS_stmt Counted.load Counted.store (Counted.const ⟨⟨32, false⟩, 0x0F⟩)
            (Counted.tick (intLit 2)) ⟨⟨⟨32, false⟩, 0xF0⟩, 0⟩
          = ⟨⟨⟨32, false⟩, 0xFF⟩, 1⟩ :=
  ⟨by decide, by decide, by decide, by decide, by decide, by decide,
    (SET_BITS_value_truth_test ⟨⟨32, false⟩, 0xF0⟩ ⟨⟨32, false⟩, 0x0F⟩ (intLit 2)
      (intLit 0x100) (by decide) (by decide) (by decide) (by decide) (by decide)
      (by decide)).1,
    (SET_BITS_value_truth_test ⟨⟨32, false⟩, 0xF0⟩ ⟨⟨32, false⟩, 0x0F⟩ (intLit 2)
      (intLit 0x100) (by decide) (by decide) (by decide) (by decide) (by decide)
      (by decide)).2.2.1,
    by decide⟩

/-- C8 as stated fails: with a 64-bit `reg` holding all ones, the 32-bit unsigned mask
`0x80000000` and the value `0`, bit 40 of the mask is 0 and yet bit 40 of `reg` goes
from 1 to 0 (`~mask` is formed at 32 bits and zero-extended), so it is not true that
every bit position where the mask has a 0 keeps its bit. -/
theorem SET_BITS_frame_counterexample :
    SET_BITS ⟨⟨64, false⟩, 0xFFFFFFFFFFFFFFFF⟩ ⟨⟨32, false⟩, 0x80000000⟩ (intLit 0)
        = ⟨⟨64, false⟩, 0x000000007FFFFFFF⟩
      ∧ (CInt.mk ⟨32, false⟩ 0x80000000).bitAt 40 = false
      ∧ (0xFFFFFFFFFFFFFFFF : Nat).testBit 40 = true
      ∧ ¬ (∀ reg mask value : CInt, reg.WF → mask.WF → value.WF →
            ∀ i, i < reg.ty.width → mask.bitAt i = false →
              (SET_BITS reg mask value).bits.testBit i = reg.bits.testBit i) := by
  refine ⟨by decide, by decide, by decide, ?_⟩
  intro h
  have h40 := h ⟨⟨64, false⟩, 0xFFFFFFFFFFFFFFFF⟩ ⟨⟨32, false⟩, 0x80000000⟩ (intLit 0)
    (by decide) (by decide) (by decide) 40 (by decide) (by decide)
  revert h40
  decide

/-- C8, amended: `SET_BITS` changes only masked bits, except that with a zero `value`
and a mask of an unsigned type at least as wide as `int` the bits of `reg` at and above
the width of the mask are cleared as well.  For every `reg`, `mask` and `value`: a bit
position of `reg` where the value of the mask has a 0 (a signed mask read in two's
complement, sign-extended) holds the same bit afterwards as before whenever `value` is
non-zero, or the type of `mask` is signed or narrower than `int`, or the position is
below the width of the mask; it holds 0 in the remaining case; and a bit position where
the mask has a 1 holds 0 if `value` is zero and 1 otherwise.  So whenever `value` is
non-zero, or the type of `mask` is signed, narrower than `int`, or at least as wide as
that of `reg`, (new `reg`) AND (NOT `mask`) = (old `reg`) AND (NOT `mask`), the mask
taken at the type of `reg`. -/
theorem SET_BITS_frame (reg mask value : CInt) (hr : reg.WF) (hm : mask.WF)
    (hv : value.WF) :
    (SET_BITS reg mask value).ty = reg.ty
      ∧ (SET_BITS reg mask value).WF
      ∧ (∀ i, i < reg.ty.width → mask.bitAt i = false →
          (value.toInt ≠ 0 ∨ mask.ty.signed = true ∨ mask.ty.width < INT_WIDTH
            ∨ i < mask.ty.width) →
          (SET_BITS reg mask value).bits.testBit i = reg.bits.testBit i)
      ∧ (∀ i, i < reg.ty.width → value.toInt = 0 → mask.ty.signed = false →
          INT_WIDTH ≤ mask.ty.width → mask.ty.width ≤ i →
          (SET_BITS reg mask value).bits.testBit i = false)
      ∧ (∀ i, i < reg.ty.width → mask.bitAt i = true →
          (SET_BITS reg mask value).bits.testBit i = decide (value.toInt ≠ 0))
      ∧ ((value.toInt ≠ 0 ∨ mask.ty.signed = true ∨ mask.ty.width < INT_WIDTH
            ∨ reg.ty.width ≤ mask.ty.width) →
          (SET_BITS reg mask value).bits
                &&& ((2 ^ reg.ty.width - 1) ^^^ (convert reg.ty mask).bits)
              = reg.bits &&& ((2 ^ reg.ty.width - 1) ^^^ (convert reg.ty mask).bits)) := by
  refine ⟨SET_BITS_ty _ _ _, SET_BITS_wf _ _ _, ?_, ?_, ?_, ?_⟩
  · intro i hi hb h
    rw [SET_BITS_testBit hr hm hv hi h]
    simp [hb]
  · intro i _ hz hs hw hi
    exact SET_BITS_testBit_above hr hm hv i hz hs hw hi
  · intro i hi hb
    by_cases hz : value.bits = 0
    · have hz2 : value.toInt = 0 := (toInt_eq_zero_iff hv).2 hz
      rw [SET_BITS_clear_testBit hr hm hv hz]
      simp [hb, hz2]
    · have hz2 : value.toInt ≠ 0 := fun hc => hz ((toInt_eq_zero_iff hv).1 hc)
      rw [SET_BITS_set_testBit hr hm hv hz]
      simp [hi, hb, hz2]
  · intro h
    apply Nat.eq_of_testBit_eq
    intro i
    simp only [Nat.testBit_and, Nat.testBit_xor, Nat.testBit_two_pow_sub_one,
      convert_testBit hm]
    by_cases hi : i < reg.ty.width
    · have h2 : value.toInt ≠ 0 ∨ mask.ty.signed = true ∨ mask.ty.width < INT_WIDTH
          ∨ i < mask.ty.width := by
        rcases h with h | h | h | h
        · exact Or.inl h
        · exact Or.inr (Or.inl h)
        · exact Or.inr (Or.inr (Or.inl h))
        · exact Or.inr (Or.inr (Or.inr (Nat.lt_of_lt_of_le hi h)))
      rw [SET_BITS_testBit hr hm hv hi h2]
      cases hb : mask.bitAt i <;> simp [hi]
    · have hw := SET_BITS_wf reg mask value
      have ht := SET_BITS_ty reg mask value
      rw [testBit_of_wf hr (Nat.le_of_not_lt hi),
        testBit_of_wf hw (by rw [ht]; exact Nat.le_of_not_lt hi)]

/-- C8 amended, at a 64-bit register of all ones, the 32-bit unsigned mask `0x00000007`
and the value `0`: the register becomes `0x00000000FFFFFFF8`; bit 3, unmasked and below
the width of the mask, is kept, bit 0, masked, is cleared, and bit 40, at or above the
width of the mask, is cleared. -/
theorem SET_BITS_frame_witness :
    (CInt.mk ⟨64, false⟩ 0xFFFFFFFFFFFFFFFF).WF ∧ (CInt.mk ⟨32, false⟩ 0x00000007).WF
      ∧ (intLit 0).WF
      ∧ SET_BITS ⟨⟨64, false⟩, 0xFFFFFFFFFFFFFFFF⟩ ⟨⟨32, false⟩, 0x00000007⟩ (intLit 0)
          = ⟨⟨64, false⟩, 0x00000000FFFFFFF8⟩
      ∧ (SET_BITS ⟨⟨64, false⟩, 0xFFFFFFFFFFFFFFFF⟩ ⟨⟨32, false⟩, 0x00000007⟩
            (intLit 0)).bits.testBit 3
          = (0xFFFFFFFFFFFFFFFF : Nat).testBit 3
      ∧ (SET_BITS ⟨⟨64, false⟩, 0xFFFFFFFFFFFFFFFF⟩ ⟨⟨32, false⟩, 0x00000007⟩
            (intLit 0)).bits.testBit 0
          = decide ((intLit 0).toInt ≠ 0)
      ∧ (SET_BITS ⟨⟨64, false⟩, 0xFFFFFFFFFFFFFFFF⟩ ⟨⟨32, false⟩, 0x00000007⟩
            (intLit 0)).bits.testBit 40
          = false :=
  ⟨by decide, by decide, by decide, by decide,
    (SET_BITS_frame ⟨⟨64, false⟩, 0xFFFFFFFFFFFFFFFF⟩ ⟨⟨32, false⟩, 0x00000007⟩ (intLit 0)
      (by decide) (by decide) (by decide)).2.2.1 3 (by decide) (by decide)
      (Or.inr (Or.inr (Or.inr (by decide)))),
    (SET_BITS_frame ⟨⟨64, false⟩, 0xFFFFFFFFFFFFFFFF⟩ ⟨⟨32, false⟩, 0x00000007⟩ (intLit 0)
      (by decide) (by decide) (by decide)).2.2.2.2.1 0 (by decide) (by decide),
    (SET_BITS_frame ⟨⟨64, false⟩, 0xFFFFFFFFFFFFFFFF⟩ ⟨⟨32, false⟩, 0x00000007⟩ (intLit 0)
      (by decide) (by decide) (by decide)).2.2.2.1 40 (by decide) (by decide) (by decide)
      (by decide) (by decide)⟩

end Platform
